import Mathlib

/-!
# Open/closed principle example (`src/OCP.go`): the two area calculators

A shallow embedding of `src/OCP.go` and a verification of its arithmetic contract.

## The model

* The program computes with Go's `float64`.  `F64` is the set of IEEE 754 binary64 values
  (all NaNs identified), and `F64.add`, `F64.mul` are the correctly rounded operations
  (round to nearest, ties to even) that `+` and `*` denote on that type.
* Go allows a compiler to fuse `x*y + z` into one operation with a single rounding
  (`F64.fma`).  The only statements where a product stands next to an addition are the two
  `area += ...` of the type switch; `AreaCalculator.CalculateArea` takes the choice of the
  build as the parameter `fused`.  In `ShapeAreaCalculator.CalculateArea` the product is
  returned, rounded, by the method called through the interface before it is added.
* `math.Pi` is the `float64` nearest to π (`F64.Pi`, see `F64.Pi_nearest`).
* An interface value is a `Value Ext`: a non-nil value tagged with its dynamic type, where
  `Ext` collects every type other than `Rectangle`, `Circle` and `Triangle`.  A `[]Shape` is
  a list of such values with a `Shape Ext` instance; an implementation of `Area` is a
  function, so it returns and has no side effect.
* `log.Println` in the default case of the type switch is kept as a list of logged lines
  returned next to the area.

## The results

* `F64.round_spec`, `F64.mul_spec`: rounding error of the model.
* `F64.add_round`, `F64.mul_round`: the operations are exact on values that need no rounding.
* The claims about the calculators, at the end.
-/

namespace OCP

/-! ## The `float64` type -/

/-- The values of a `float64`: NaN (payload not tracked), the two infinities, and the finite
values given by sign bit, biased exponent field `e` (0 to 2046) and fraction field `m`
(52 bits).  `e = 0` holds the zeros and the subnormal numbers. -/
inductive F64 where
  | nan : F64
  | inf (neg : Bool) : F64
  | fin (neg : Bool) (e : Fin 2047) (m : Fin (2 ^ 52)) : F64
  deriving DecidableEq

namespace F64

/-- Integer significand of the finite value with fields `e`, `m`. -/
def sig (e : Fin 2047) (m : Fin (2 ^ 52)) : Nat :=
  if e.val = 0 then m.val else 2 ^ 52 + m.val

/-- Binary exponent attached to the integer significand: the value is `sig * 2 ^ ex`. -/
def ex (e : Fin 2047) : Int :=
  if e.val = 0 then -1074 else (e.val : Int) - 1075

/-- A normal number with fraction `frac` and biased exponent `be`; overflow gives an
infinity. -/
def packNormal (neg : Bool) (frac : Nat) (be : Int) : F64 :=
  if h : (0 < be ∧ be < 2047) ∧ frac < 2 ^ 52 then
    .fin neg ⟨be.toNat, by omega⟩ ⟨frac, h.2⟩
  else .inf neg

/-- The float with integer significand `M ≤ 2 ^ 53` at exponent `E` (`E = -1074` whenever
`M < 2 ^ 52`). -/
def pack (neg : Bool) (M : Nat) (E : Int) : F64 :=
  if h : M < 2 ^ 52 then .fin neg ⟨0, by decide⟩ ⟨M, h⟩
  else if M < 2 ^ 53 then packNormal neg (M - 2 ^ 52) (E + 1075)
  else packNormal neg 0 (E + 1076)

/-- Number of binary digits of `n`, counted in at most `fuel` steps; a step takes off 64
digits at once while there are that many. -/
def bitLenAux : Nat → Nat → Nat
  | 0, _ => 0
  | fuel + 1, n =>
    if n = 0 then 0
    else if 2 ^ 64 ≤ n then bitLenAux fuel (n / 2 ^ 64) + 64
    else bitLenAux fuel (n / 2) + 1

/-- Number of binary digits of `n` (`0` for `n = 0`). -/
def bitLen (n : Nat) : Nat := bitLenAux n n

/-- Exponent at which `n * 2 ^ e` is rounded: the one that leaves 53 significant bits,
bounded below by the subnormal exponent. -/
def roundEx (n : Nat) (e : Int) : Int :=
  max (e + (bitLen n : Int) - 53) (-1074)

/-- Integer significand of `n * 2 ^ e` at exponent `E`, to nearest, ties to even. -/
def roundSig (n : Nat) (e E : Int) : Nat :=
  if E ≤ e then n * 2 ^ (e - E).toNat
  else
    let k := (E - e).toNat
    let q := n / 2 ^ k
    let r := n % 2 ^ k
    let half := 2 ^ (k - 1)
    if half < r ∨ (r = half ∧ q % 2 = 1) then q + 1 else q

/-- The `float64` nearest to `± n * 2 ^ e` (ties to even); the sign is given apart, so that a
zero result keeps it. -/
def round (neg : Bool) (n : Nat) (e : Int) : F64 :=
  pack neg (roundSig n e (roundEx n e)) (roundEx n e)

/-- Positive zero, the zero value of a `float64` variable. -/
def zero : F64 := .fin false ⟨0, by decide⟩ ⟨0, by decide⟩

/-- Negative zero. -/
def negZero : F64 := .fin true ⟨0, by decide⟩ ⟨0, by decide⟩

/-- Conversion of a non-negative integer constant to `float64`. -/
def ofNat (n : Nat) : F64 := round false n 0

/-- The constant `0.5`. -/
def half : F64 := .fin false ⟨1022, by decide⟩ ⟨0, by decide⟩

/-- The constant `math.Pi` as a `float64`: bit pattern `0x400921FB54442D18`, the binary64
value nearest to π. -/
def Pi : F64 := .fin false ⟨1024, by decide⟩ ⟨0x921FB54442D18, by decide⟩

/-- Signed integer with magnitude `n`. -/
def signed (neg : Bool) (n : Nat) : Int := if neg then -(n : Int) else (n : Int)

/-- Go's `+` on `float64`. -/
def add : F64 → F64 → F64
  | .nan, _ => .nan
  | _, .nan => .nan
  | .inf s, .inf t => if s = t then .inf s else .nan
  | .inf s, .fin _ _ _ => .inf s
  | .fin _ _ _, .inf t => .inf t
  | .fin s e m, .fin t f k =>
    let E := min (ex e) (ex f)
    let c := signed s (sig e m * 2 ^ (ex e - E).toNat) + signed t (sig f k * 2 ^ (ex f - E).toNat)
    if c = 0 then .fin (s && t) ⟨0, by decide⟩ ⟨0, by decide⟩
    else round (decide (c < 0)) c.natAbs E

/-- Go's `*` on `float64`. -/
def mul : F64 → F64 → F64
  | .nan, _ => .nan
  | _, .nan => .nan
  | .inf s, .inf t => .inf (xor s t)
  | .inf s, .fin t f k => if sig f k = 0 then .nan else .inf (xor s t)
  | .fin s e m, .inf t => if sig e m = 0 then .nan else .inf (xor s t)
  | .fin s e m, .fin t f k => round (xor s t) (sig e m * sig f k) (ex e + ex f)

/-- The fused multiply-add `x * y + z` with a single rounding: what `z += x * y` computes
where the compiler fuses the two operations, as Go allows (the arm64 build does). -/
def fma : F64 → F64 → F64 → F64
  | .nan, _, _ => .nan
  | _, .nan, _ => .nan
  | _, _, .nan => .nan
  | .inf s, .inf t, z => add (.inf (xor s t)) z
  | .inf s, .fin t f k, z => if sig f k = 0 then .nan else add (.inf (xor s t)) z
  | .fin s e m, .inf t, z => if sig e m = 0 then .nan else add (.inf (xor s t)) z
  | .fin _ _ _, .fin _ _ _, .inf u => .inf u
  | .fin s e m, .fin t f k, .fin u g l =>
    let E := min (ex e + ex f) (ex g)
    let c := signed (xor s t) (sig e m * sig f k * 2 ^ (ex e + ex f - E).toNat) +
      signed u (sig g l * 2 ^ (ex g - E).toNat)
    if c = 0 then .fin (xor s t && u) ⟨0, by decide⟩ ⟨0, by decide⟩
    else round (decide (c < 0)) c.natAbs E

/-- Go's `==` on `float64`: NaN equals nothing, the two zeros are equal. -/
def eq : F64 → F64 → Bool
  | .nan, _ => false
  | _, .nan => false
  | .inf s, .inf t => s == t
  | .inf _, .fin _ _ _ => false
  | .fin _ _ _, .inf _ => false
  | .fin s e m, .fin t f k => (sig e m == 0 && sig f k == 0) || (s == t && e == f && m == k)

/-- The float is finite (neither NaN nor an infinity). -/
def isFinite : F64 → Bool
  | .fin _ _ _ => true
  | _ => false

/-- The rational number a finite float stands for (`0` for NaN and the infinities). -/
def toRat : F64 → ℚ
  | .fin s e m => (signed s (sig e m) : ℚ) * (2 : ℚ) ^ (ex e)
  | _ => 0

end F64

/-! ## The shapes and the two calculators -/

/-- The struct `Rectangle`. -/
structure Rectangle where
  Width : F64
  Height : F64
  deriving DecidableEq

/-- The struct `Circle`. -/
structure Circle where
  Radius : F64
  deriving DecidableEq

/-- The struct `Triangle`. -/
structure Triangle where
  Base : F64
  Height : F64
  deriving DecidableEq

/-- The interface `Shape`: the method set `Area() float64`.  An implementation is taken to
return normally and without side effect. -/
class Shape (α : Type) where
  Area : α → F64

/-- The method `Rectangle.Area`. -/
def Rectangle.Area (r : Rectangle) : F64 := F64.mul r.Width r.Height

/-- The method `Circle.Area`: `math.Pi * c.Radius * c.Radius`, parsed `(Pi * r) * r`. -/
def Circle.Area (c : Circle) : F64 := F64.mul (F64.mul F64.Pi c.Radius) c.Radius

/-- The method `Triangle.Area`: `0.5 * t.Base * t.Height`, parsed `(0.5 * b) * h`. -/
def Triangle.Area (t : Triangle) : F64 := F64.mul (F64.mul F64.half t.Base) t.Height

instance : Shape Rectangle := ⟨Rectangle.Area⟩
instance : Shape Circle := ⟨Circle.Area⟩
instance : Shape Triangle := ⟨Triangle.Area⟩

/-- A non-nil interface value: a value together with its dynamic type.  The three struct
types of the file are told apart, as the type switch does; `Ext` stands for the values of
every other type. -/
inductive Value (Ext : Type) where
  | rectangle (r : Rectangle) : Value Ext
  | circle (c : Circle) : Value Ext
  | triangle (t : Triangle) : Value Ext
  | other (x : Ext) : Value Ext

/-- Dynamic dispatch of `shape.Area()` on a `Shape` interface value. -/
def Value.Area {Ext : Type} [Shape Ext] : Value Ext → F64
  | .rectangle r => Shape.Area r
  | .circle c => Shape.Area c
  | .triangle t => Shape.Area t
  | .other x => Shape.Area x

/-- The method `ShapeAreaCalculator.CalculateArea`: `totalArea` starts at `0` and each element
of the slice, in order, adds its `Area()`. -/
def ShapeAreaCalculator.CalculateArea {Ext : Type} [Shape Ext] (shapes : List (Value Ext)) :
    F64 :=
  shapes.foldl (fun totalArea shape => F64.add totalArea shape.Area) F64.zero

/-- The statement `area += x * y` of the type switch.  Go lets the compiler either round
the product and then the sum, or fuse the two into one multiply-add with a single rounding;
`fused` says which the build does (the amd64 build does not fuse, the arm64 build does). -/
def AreaCalculator.addProduct (fused : Bool) (area x y : F64) : F64 :=
  if fused then F64.fma x y area else F64.add area (F64.mul x y)

/-- One iteration of the loop of `AreaCalculator.CalculateArea`: the type switch.  The state
is the running `area` and the lines handed to `log.Println` so far.  In the `Circle` case the
product `math.Pi * s.Radius` is rounded first; only the last product stands next to the
addition. -/
def AreaCalculator.step {Ext : Type} (fused : Bool) (st : F64 × List String)
    (shape : Value Ext) : F64 × List String :=
  match shape with
  | .rectangle s => (AreaCalculator.addProduct fused st.1 s.Width s.Height, st.2)
  | .circle s =>
    (AreaCalculator.addProduct fused st.1 (F64.mul F64.Pi s.Radius) s.Radius, st.2)
  | _ => (st.1, st.2 ++ ["Unknown shape"])

/-- The method `AreaCalculator.CalculateArea` over a slice of `interface{}` values, on a
build that fuses multiply-add or not: the returned area, and the logged lines. -/
def AreaCalculator.CalculateArea {Ext : Type} (fused : Bool) (shapes : List (Value Ext)) :
    F64 × List String :=
  shapes.foldl (AreaCalculator.step fused) (F64.zero, [])

/-- The slice `shapes` built by `OCP_Demo`. -/
def OCP_Demo.shapes : List (Value Empty) :=
  [ .rectangle ⟨F64.ofNat 10, F64.ofNat 20⟩,
    .circle ⟨F64.ofNat 5⟩,
    .triangle ⟨F64.ofNat 10, F64.ofNat 20⟩ ]

/-- No type besides the three of the file: the interface has no further implementation. -/
instance : Shape Empty := ⟨fun x => nomatch x⟩

/-- The float is one of the two zeros. -/
def F64.isZero : F64 → Bool
  | .fin _ e m => F64.sig e m == 0
  | _ => false

/-- The constant `-1`. -/
def F64.negOne : F64 := .fin true ⟨1023, by decide⟩ ⟨0, by decide⟩

/-- The dynamic type is one of the two cases of the type switch. -/
def Value.isRectangleOrCircle {Ext : Type} : Value Ext → Bool
  | .rectangle _ => true
  | .circle _ => true
  | _ => false

/-! ## Example inputs -/

/-- One rectangle of `2 ^ 53` by `1`. -/
def bigSquare : List (Value Empty) :=
  [.rectangle ⟨F64.ofNat 9007199254740992, F64.ofNat 1⟩]

/-- Two rectangles of `1` by `1`. -/
def unitSquares : List (Value Empty) :=
  [.rectangle ⟨F64.ofNat 1, F64.ofNat 1⟩, .rectangle ⟨F64.ofNat 1, F64.ofNat 1⟩]

/-- The rectangle `Rectangle{Width: -1, Height: 0}`. -/
def negZeroRectangle : Value Empty := .rectangle ⟨F64.negOne, F64.zero⟩

/-- The first element of the demo slice. -/
def rect1020 : Value Empty := .rectangle ⟨F64.ofNat 10, F64.ofNat 20⟩

/-- The second element of the demo slice. -/
def circ5 : Value Empty := .circle ⟨F64.ofNat 5⟩

/-- The circle `Circle{Radius: 10}`. -/
def circ10 : Value Empty := .circle ⟨F64.ofNat 10⟩

/-- The third element of the demo slice. -/
def tri1020 : Value Empty := .triangle ⟨F64.ofNat 10, F64.ofNat 20⟩

/-! ## Lemmas on the float model -/

namespace F64

/-- Characterisation of the digit count: `bitLenAux fuel n ≤ L` exactly when `n < 2 ^ L`,
once the fuel is at least `n`. -/
theorem bitLenAux_le_iff (fuel : Nat) : ∀ n, n ≤ fuel → ∀ L, bitLenAux fuel n ≤ L ↔ n < 2 ^ L := by
  induction fuel with
  | zero =>
    intro n hn L
    have : n = 0 := by omega
    subst this
    simp [bitLenAux]
  | succ f ih =>
    intro n hn L
    unfold bitLenAux
    by_cases h0 : n = 0
    · subst h0; simp
    · rw [if_neg h0]
      by_cases h64 : 2 ^ 64 ≤ n
      · rw [if_pos h64]
        have hf : n / 2 ^ 64 ≤ f := by
          have : n / 2 ^ 64 < n := Nat.div_lt_self (by omega) (by norm_num)
          omega
        by_cases hL : 64 ≤ L
        · obtain ⟨L', rfl⟩ : ∃ L', L = L' + 64 := ⟨L - 64, by omega⟩
          rw [Nat.add_le_add_iff_right, ih _ hf L', pow_add, Nat.div_lt_iff_lt_mul (by positivity)]
        · have h1 : (2:ℕ) ^ L ≤ 2 ^ 64 := Nat.pow_le_pow_right (by norm_num) (by omega)
          constructor
          · intro h; omega
          · intro h; omega
      · rw [if_neg h64]
        have hf : n / 2 ≤ f := by omega
        by_cases hL : 1 ≤ L
        · obtain ⟨L', rfl⟩ : ∃ L', L = L' + 1 := ⟨L - 1, by omega⟩
          rw [Nat.add_le_add_iff_right, ih _ hf L', pow_succ, Nat.div_lt_iff_lt_mul (by norm_num)]
        · have h1 : L = 0 := by omega
          subst h1
          constructor
          · intro h; omega
          · intro h; simp at h; omega

/-- The digit count of `n` is at most `L` exactly when `n < 2 ^ L`. -/
theorem bitLen_le_iff (n L : Nat) : bitLen n ≤ L ↔ n < 2 ^ L :=
  bitLenAux_le_iff n n le_rfl L

theorem lt_two_pow_bitLen (n : Nat) : n < 2 ^ bitLen n :=
  (bitLen_le_iff n _).1 le_rfl

theorem two_pow_bitLen_le (n : Nat) (h : n ≠ 0) : 2 ^ (bitLen n - 1) ≤ n := by
  by_contra hlt
  have h1 : bitLen n ≤ bitLen n - 1 := (bitLen_le_iff n _).2 (by omega)
  have h2 : bitLen n = 0 := by omega
  have h3 := lt_two_pow_bitLen n
  rw [h2] at h3
  simp at h3
  exact h h3

theorem bitLen_eq_of (n L : Nat) (h1 : 2 ^ L ≤ n) (h2 : n < 2 ^ (L + 1)) : bitLen n = L + 1 := by
  apply le_antisymm
  · exact (bitLen_le_iff n _).2 h2
  · by_contra hlt
    have h3 : bitLen n ≤ L := by omega
    have := (bitLen_le_iff n _).1 h3
    omega

theorem bitLen_pos (n : Nat) (h : n ≠ 0) : 0 < bitLen n := by
  by_contra h0
  have h2 : bitLen n = 0 := by omega
  have h3 := lt_two_pow_bitLen n
  rw [h2] at h3
  simp at h3
  exact h h3

/-- Appending `k` zero digits adds `k` to the digit count. -/
theorem bitLen_mul_two_pow (n k : Nat) (h : n ≠ 0) : bitLen (n * 2 ^ k) = bitLen n + k := by
  have hb := bitLen_pos n h
  have h1 := two_pow_bitLen_le n h
  have h2 := lt_two_pow_bitLen n
  obtain ⟨L, hL⟩ : ∃ L, bitLen n = L + 1 := ⟨bitLen n - 1, by omega⟩
  rw [hL] at h1 h2 ⊢
  simp only [Nat.add_sub_cancel] at h1
  have : L + 1 + k = (L + k) + 1 := by omega
  rw [this]
  apply bitLen_eq_of
  · rw [pow_add]; exact Nat.mul_le_mul_right _ h1
  · rw [show L + k + 1 = (L + 1) + k by omega, pow_add]
    exact Nat.mul_lt_mul_of_pos_right h2 (by positivity)


theorem roundSig_zero (e E : Int) : roundSig 0 e E = 0 := by
  unfold roundSig
  split
  · simp
  · have : ¬ (2 ^ ((E - e).toNat - 1) < 0 ∨ (0 = 2 ^ ((E - e).toNat - 1) ∧ False)) := by simp
    simp

/-- Rounding zero gives the zero of the given sign. -/
theorem round_zero (neg : Bool) (e : Int) : round neg 0 e = .fin neg ⟨0, by decide⟩ ⟨0, by decide⟩ := by
  unfold round
  rw [roundSig_zero]
  simp [pack]

/-- The rounded significand depends on the value `n * 2 ^ e` only, not on how it is split
into integer and exponent. -/
theorem roundSig_scale (n k : Nat) (e E : Int) :
    roundSig (n * 2 ^ k) e E = roundSig n (e + k) E := by
  unfold roundSig
  by_cases h1 : E ≤ e
  · have h2 : E ≤ e + k := by omega
    rw [if_pos h1, if_pos h2, mul_assoc, ← pow_add]
    congr 2
    omega
  · rw [if_neg h1]
    by_cases h2 : E ≤ e + k
    · rw [if_pos h2]
      obtain ⟨j, hj⟩ : ∃ j : Nat, (E - e).toNat = j + 1 := ⟨(E - e).toNat - 1, by omega⟩
      obtain ⟨i, hi⟩ : ∃ i : Nat, (e + k - E).toNat = i := ⟨_, rfl⟩
      have hk : k = i + (j + 1) := by omega
      simp only [hj, hi, Nat.add_sub_cancel]
      have hq : n * 2 ^ k / 2 ^ (j + 1) = n * 2 ^ i := by
        rw [hk, pow_add, ← mul_assoc, Nat.mul_div_cancel _ (by positivity)]
      have hr : n * 2 ^ k % 2 ^ (j + 1) = 0 := by
        rw [hk, pow_add, ← mul_assoc, Nat.mul_mod_left]
      rw [hq, hr]
      have hp : 0 < 2 ^ j := by positivity
      have : ¬ (2 ^ j < 0 ∨ (0 = 2 ^ j ∧ n * 2 ^ i % 2 = 1)) := by
        intro h; rcases h with h | h
        · omega
        · omega
      rw [if_neg this]
    · rw [if_neg h2]
      obtain ⟨j, hj⟩ : ∃ j : Nat, (E - (e + k)).toNat = j + 1 := ⟨(E - (e + k)).toNat - 1, by omega⟩
      have hj' : (E - e).toNat = (j + 1) + k := by omega
      simp only [hj, hj', Nat.add_sub_cancel]
      have hq : n * 2 ^ k / 2 ^ (j + 1 + k) = n / 2 ^ (j + 1) := by
        rw [pow_add (2:ℕ) (j+1) k, Nat.mul_div_mul_right _ _ (by positivity)]
      have hr : n * 2 ^ k % 2 ^ (j + 1 + k) = n % 2 ^ (j + 1) * 2 ^ k := by
        rw [pow_add (2:ℕ) (j+1) k, Nat.mul_mod_mul_right]
      have hh : 2 ^ (j + 1 + k - 1) = 2 ^ j * 2 ^ k := by
        rw [← pow_add]; congr 1; omega
      rw [hq, hr, hh]
      have hp : 0 < 2 ^ k := by positivity
      have c1 : 2 ^ j * 2 ^ k < n % 2 ^ (j + 1) * 2 ^ k ↔ 2 ^ j < n % 2 ^ (j + 1) :=
        Nat.mul_lt_mul_right hp
      have c2 : n % 2 ^ (j + 1) * 2 ^ k = 2 ^ j * 2 ^ k ↔ n % 2 ^ (j + 1) = 2 ^ j :=
        Nat.mul_left_inj (by omega)
      simp only [c1, c2]

theorem roundEx_scale (n k : Nat) (e : Int) (h : n ≠ 0) :
    roundEx (n * 2 ^ k) e = roundEx n (e + k) := by
  unfold roundEx
  rw [bitLen_mul_two_pow n k h]
  push_cast
  congr 1
  ring

/-- Rounding depends on the value `n * 2 ^ e` only: trailing zero digits of the integer can be
moved into the exponent. -/
theorem round_scale (neg : Bool) (n k : Nat) (e : Int) :
    round neg (n * 2 ^ k) e = round neg n (e + k) := by
  by_cases h : n = 0
  · subst h; simp [round_zero]
  · unfold round
    rw [roundEx_scale n k e h, roundSig_scale]


theorem roundSig_self (n : Nat) (e : Int) : roundSig n e e = n := by
  unfold roundSig
  simp

theorem pack_subnormal (neg : Bool) (M : Nat) (E : Int) (h : M < 2 ^ 52) :
    pack neg M E = .fin neg ⟨0, by decide⟩ ⟨M, h⟩ := by
  unfold pack
  rw [dif_pos h]

theorem pack_normal (neg : Bool) (M : Nat) (E : Int) (h1 : 2 ^ 52 ≤ M) (h2 : M < 2 ^ 53)
    (h3 : -1074 ≤ E) (h4 : E ≤ 971) :
    pack neg M E = .fin neg ⟨(E + 1075).toNat, by omega⟩ ⟨M - 2 ^ 52, by omega⟩ := by
  unfold pack
  rw [dif_neg (by omega), if_pos h2]
  unfold packNormal
  rw [dif_pos ⟨⟨by omega, by omega⟩, by omega⟩]

/-- Rounding the exact value of a finite float gives the float back. -/
theorem round_sig_ex (t : Bool) (f : Fin 2047) (k : Fin (2 ^ 52)) :
    round t (sig f k) (ex f) = .fin t f k := by
  have hk := k.isLt
  have hf := f.isLt
  unfold round
  by_cases h0 : f.val = 0
  · have hs : sig f k = k.val := by simp [sig, h0]
    have he : ex f = -1074 := by simp [ex, h0]
    have hb : bitLen k.val ≤ 52 := (bitLen_le_iff _ _).2 hk
    have hE : roundEx k.val (-1074) = -1074 := by unfold roundEx; omega
    rw [hs, he, hE, roundSig_self, pack_subnormal _ _ _ hk]
    exact congrArg₂ (F64.fin t) (Fin.ext h0.symm) rfl
  · have hs : sig f k = 2 ^ 52 + k.val := by simp [sig, h0]
    have he : ex f = (f.val : Int) - 1075 := by simp [ex, h0]
    have hb : bitLen (2 ^ 52 + k.val) = 52 + 1 := bitLen_eq_of _ _ (by omega) (by omega)
    have hE : roundEx (2 ^ 52 + k.val) ((f.val : Int) - 1075) = (f.val : Int) - 1075 := by
      unfold roundEx; rw [hb]; omega
    have g1 : 2 ^ 52 ≤ 2 ^ 52 + k.val := by omega
    have g2 : 2 ^ 52 + k.val < 2 ^ 53 := by omega
    have g3 : (-1074 : Int) ≤ (f.val : Int) - 1075 := by omega
    have g4 : (f.val : Int) - 1075 ≤ 971 := by omega
    rw [hs, he, hE, roundSig_self]
    have hp := pack_normal t (2 ^ 52 + k.val) ((f.val : Int) - 1075) g1 g2 g3 g4
    refine hp.trans (congrArg₂ (F64.fin t) (Fin.ext ?_) (Fin.ext ?_))
    · show ((f.val : Int) - 1075 + 1075).toNat = f.val
      omega
    · show 2 ^ 52 + k.val - 2 ^ 52 = k.val
      omega

theorem ex_ge (f : Fin 2047) : -1074 ≤ ex f := by
  unfold ex; split <;> omega

theorem sig_eq_zero_iff (f : Fin 2047) (k : Fin (2 ^ 52)) :
    sig f k = 0 ↔ f = ⟨0, by decide⟩ ∧ k = ⟨0, by decide⟩ := by
  unfold sig
  constructor
  · intro h
    split at h
    · exact ⟨Fin.ext (by assumption), Fin.ext h⟩
    · omega
  · rintro ⟨rfl, rfl⟩
    simp

theorem natAbs_signed (s : Bool) (n : Nat) : (signed s n).natAbs = n := by
  cases s <;> simp [signed]

theorem signed_eq_zero_iff (s : Bool) (n : Nat) : signed s n = 0 ↔ n = 0 := by
  cases s <;> simp [signed]

theorem decide_signed_neg (s : Bool) (n : Nat) (h : n ≠ 0) : decide (signed s n < 0) = s := by
  cases s
  · simp [signed]
  · simp [signed]; omega

/-- Adding a float to positive zero gives the float back, except that negative zero becomes
positive zero. -/
theorem zero_add (x : F64) : add zero x = if x = negZero then zero else x := by
  cases x with
  | nan => simp [add, zero, negZero]
  | inf s => simp [add, zero, negZero]
  | fin t f k =>
    have hsz : sig ⟨0, by decide⟩ ⟨0, by decide⟩ = 0 := by simp [sig]
    have hez : ex ⟨0, by decide⟩ = -1074 := by simp [ex]
    have hge := ex_ge f
    simp only [add, zero, hsz, hez, min_eq_left hge]
    have hc : signed false (0 * 2 ^ (-1074 - -1074 : Int).toNat) +
        signed t (sig f k * 2 ^ (ex f - -1074).toNat) =
        signed t (sig f k * 2 ^ (ex f - -1074).toNat) := by
      simp [signed]
    rw [hc]
    by_cases hz : sig f k = 0
    · have hz' := (sig_eq_zero_iff f k).1 hz
      obtain ⟨rfl, rfl⟩ := hz'
      have : signed t (sig ⟨0, by decide⟩ ⟨0, by decide⟩ * 2 ^ (ex ⟨0, by decide⟩ - -1074).toNat) = 0 := by
        rw [signed_eq_zero_iff, hsz, Nat.zero_mul]
      rw [if_pos this]
      cases t <;> simp [negZero]
    · have hpos : 0 < sig f k * 2 ^ (ex f - -1074).toNat := by positivity
      have hne : signed t (sig f k * 2 ^ (ex f - -1074).toNat) ≠ 0 := by
        rw [Ne, signed_eq_zero_iff]; omega
      have hlt : decide (signed t (sig f k * 2 ^ (ex f - -1074).toNat) < 0) = t :=
        decide_signed_neg _ _ (by omega)
      have hab : (signed t (sig f k * 2 ^ (ex f - -1074).toNat)).natAbs =
          sig f k * 2 ^ (ex f - -1074).toNat := natAbs_signed _ _
      rw [if_neg hne, hlt, hab, round_scale]
      have : (-1074 : Int) + ((ex f - -1074).toNat : Int) = ex f := by omega
      rw [this, round_sig_ex]
      have hx : F64.fin t f k ≠ negZero := by
        intro h
        simp only [negZero, fin.injEq] at h
        exact hz ((sig_eq_zero_iff f k).2 ⟨h.2.1, h.2.2⟩)
      rw [if_neg hx]


/-- Rounding is exact on a value with at most 53 significant bits that lies in range: the
result is finite with the given sign and stands for the same integer multiple of
`2 ^ (-1074)`. -/
theorem round_exact (s : Bool) (M j : Nat) (hM : M < 2 ^ 53) (hj : j ≤ 2045) :
    ∃ f k, round s (M * 2 ^ j) (-1074) = .fin s f k ∧
      sig f k * 2 ^ (ex f + 1074).toNat = M * 2 ^ j := by
  by_cases h0 : M = 0
  · subst h0
    refine ⟨⟨0, by decide⟩, ⟨0, by decide⟩, ?_, ?_⟩
    · rw [Nat.zero_mul, round_zero]
    · simp [sig]
  have hL1 := lt_two_pow_bitLen M
  have hL2 := two_pow_bitLen_le M h0
  have hL0 := bitLen_pos M h0
  have hL3 : bitLen M ≤ 53 := (bitLen_le_iff _ _).2 hM
  obtain ⟨d, hd⟩ : ∃ d, bitLen M + d = 53 := ⟨53 - bitLen M, by omega⟩
  by_cases hjd : d ≤ j
  · -- normal number with significand `M * 2 ^ d`
    obtain ⟨i, hi⟩ : ∃ i, j = d + i := ⟨j - d, by omega⟩
    have g1 : 2 ^ 52 ≤ M * 2 ^ d := by
      have : 2 ^ 52 = 2 ^ (bitLen M - 1) * 2 ^ d := by rw [← pow_add]; congr 1; omega
      rw [this]; exact Nat.mul_le_mul_right _ hL2
    have g2 : M * 2 ^ d < 2 ^ 53 := by
      have : 2 ^ 53 = 2 ^ (bitLen M) * 2 ^ d := by rw [← pow_add]; congr 1; omega
      rw [this]; exact Nat.mul_lt_mul_of_pos_right hL1 (by positivity)
    have hf : i + 1 < 2047 := by omega
    have hk : M * 2 ^ d - 2 ^ 52 < 2 ^ 52 := by omega
    refine ⟨⟨i + 1, hf⟩, ⟨M * 2 ^ d - 2 ^ 52, hk⟩, ?_, ?_⟩
    · have h1 : M * 2 ^ j = (M * 2 ^ d) * 2 ^ i := by rw [hi, pow_add, mul_assoc]
      have h2 : sig ⟨i + 1, hf⟩ ⟨M * 2 ^ d - 2 ^ 52, hk⟩ = M * 2 ^ d := by
        simp only [sig]; rw [if_neg (by omega)]; omega
      have h3 : ex ⟨i + 1, hf⟩ = -1074 + (i : Int) := by
        simp only [ex]; rw [if_neg (by omega)]; push_cast; omega
      have h4 : round s (M * 2 ^ j) (-1074) =
          round s (sig ⟨i + 1, hf⟩ ⟨M * 2 ^ d - 2 ^ 52, hk⟩) (ex ⟨i + 1, hf⟩) := by
        rewrite [h1, round_scale, h3, h2]
        exact rfl
      exact h4.trans (round_sig_ex _ _ _)
    · have h2 : sig ⟨i + 1, hf⟩ ⟨M * 2 ^ d - 2 ^ 52, hk⟩ = M * 2 ^ d := by
        simp only [sig]; rw [if_neg (by omega)]; omega
      have h3 : (ex ⟨i + 1, hf⟩ + 1074).toNat = i := by
        simp only [ex]; rw [if_neg (by omega)]; push_cast; omega
      rewrite [h2, h3, hi, pow_add]
      ring
  · -- subnormal number
    have hN : M * 2 ^ j < 2 ^ 52 := by
      have h1 : M * 2 ^ j < 2 ^ (bitLen M) * 2 ^ j := Nat.mul_lt_mul_of_pos_right hL1 (by positivity)
      have h2 : 2 ^ (bitLen M) * 2 ^ j ≤ 2 ^ 52 := by
        rw [← pow_add]; exact Nat.pow_le_pow_right (by norm_num) (by omega)
      omega
    refine ⟨⟨0, by decide⟩, ⟨M * 2 ^ j, hN⟩, ?_, ?_⟩
    · have h2 : sig ⟨0, by decide⟩ ⟨M * 2 ^ j, hN⟩ = M * 2 ^ j := by simp [sig]
      have h3 : ex ⟨0, by decide⟩ = -1074 := by simp [ex]
      have := round_sig_ex s ⟨0, by decide⟩ ⟨M * 2 ^ j, hN⟩
      rw [h2, h3] at this
      exact this
    · simp [sig, ex]

/-- The sum of two finite floats with clear sign bit is the rounding of the exact sum. -/
theorem add_fin_pos (e f : Fin 2047) (m k : Fin (2 ^ 52)) :
    add (.fin false e m) (.fin false f k) =
      round false (sig e m * 2 ^ (ex e + 1074).toNat + sig f k * 2 ^ (ex f + 1074).toNat)
        (-1074) := by
  have he := ex_ge e
  have hf := ex_ge f
  obtain ⟨E, hE⟩ : ∃ E, E = min (ex e) (ex f) := ⟨_, rfl⟩
  have hE1 : -1074 ≤ E := by omega
  have k1 : (ex e + 1074).toNat = (ex e - E).toNat + (E + 1074).toNat := by omega
  have k2 : (ex f + 1074).toNat = (ex f - E).toNat + (E + 1074).toNat := by omega
  have hsum : sig e m * 2 ^ (ex e + 1074).toNat + sig f k * 2 ^ (ex f + 1074).toNat =
      (sig e m * 2 ^ (ex e - E).toNat + sig f k * 2 ^ (ex f - E).toNat) * 2 ^ (E + 1074).toNat := by
    rw [k1, k2, pow_add, pow_add]; ring
  rw [hsum, round_scale]
  have hEE : (-1074 : Int) + ((E + 1074).toNat : Int) = E := by omega
  rw [hEE]
  simp only [add, ← hE, signed, Bool.false_eq_true, if_false, Bool.and_self]
  rw [← Nat.cast_add]
  by_cases hc : sig e m * 2 ^ (ex e - E).toNat + sig f k * 2 ^ (ex f - E).toNat = 0
  · rw [hc, round_zero]
    simp
  · rw [if_neg (by exact_mod_cast hc), Int.natAbs_ofNat]
    have : decide (((sig e m * 2 ^ (ex e - E).toNat + sig f k * 2 ^ (ex f - E).toNat : Nat) : Int) < 0) = false := by
      simp only [decide_eq_false_iff_not, not_lt]; exact Int.ofNat_nonneg _
    rw [this]

/-- Rounding with the value written as a multiple of `2 ^ (-1074)`. -/
theorem round_shift (s : Bool) (n : Nat) (g : Int) (hg : -1074 ≤ g) :
    round s n g = round s (n * 2 ^ (g + 1074).toNat) (-1074) := by
  rw [round_scale]
  congr 1
  omega

/-- A float `round false n g` with `n ≤ 2 ^ 53` and `g` in range is the number `n * 2 ^ g`
itself: it is finite, its sign bit is clear, and its significand and exponent give back
`n * 2 ^ g` (both sides written as multiples of `2 ^ (-1074)`). -/
theorem round_rep (n : Nat) (g : Int) (hn : n ≤ 2 ^ 53) (hg : -1074 ≤ g) (hg' : g ≤ 970) :
    ∃ f k, round false n g = .fin false f k ∧
      sig f k * 2 ^ (ex f + 1074).toNat = n * 2 ^ (g + 1074).toNat := by
  rw [round_shift false n g hg]
  by_cases h53 : n < 2 ^ 53
  · exact round_exact false n _ h53 (by omega)
  · have hn' : n = 2 ^ 53 := by omega
    have : n * 2 ^ (g + 1074).toNat = 2 ^ 52 * 2 ^ ((g + 1074).toNat + 1) := by
      rw [hn', pow_succ]; ring
    rw [this]
    exact round_exact false (2 ^ 52) _ (by norm_num) (by omega)

/-- Float addition is exact on multiples of one power of two that stay within 53 bits. -/
theorem add_round (a b : Nat) (g : Int) (h : a + b ≤ 2 ^ 53) (hg : -1074 ≤ g) (hg' : g ≤ 970) :
    add (round false a g) (round false b g) = round false (a + b) g := by
  obtain ⟨f, k, h1, h2⟩ := round_rep a g (by omega) hg hg'
  obtain ⟨f', k', h3, h4⟩ := round_rep b g (by omega) hg hg'
  rw [h1, h3, add_fin_pos, h2, h4, ← Nat.add_mul, ← round_shift false (a + b) g hg]

/-- The float `round false n g` with `n ≤ 2 ^ 53` and `g` in range is the number
`n * 2 ^ g`. -/
theorem toRat_round (n : Nat) (g : Int) (hn : n ≤ 2 ^ 53) (hg : -1074 ≤ g) (hg' : g ≤ 970) :
    (round false n g).toRat = (n : ℚ) * (2 : ℚ) ^ g := by
  obtain ⟨f, k, h1, h2⟩ := round_rep n g hn hg hg'
  rw [h1]
  simp only [toRat, signed, Bool.false_eq_true, if_false]
  have hf := ex_ge f
  have e1 : ((sig f k : ℚ)) * (2:ℚ) ^ (ex f + 1074).toNat = (n : ℚ) * (2:ℚ) ^ (g + 1074).toNat := by
    exact_mod_cast h2
  have e2 : (2:ℚ) ^ (ex f) = (2:ℚ) ^ (ex f + 1074).toNat * (2:ℚ) ^ (-1074 : Int) := by
    rw [← zpow_natCast, ← zpow_add₀ (by norm_num)]
    congr 1; omega
  have e3 : (2:ℚ) ^ g = (2:ℚ) ^ (g + 1074).toNat * (2:ℚ) ^ (-1074 : Int) := by
    rw [← zpow_natCast, ← zpow_add₀ (by norm_num)]
    congr 1; omega
  rw [e2, e3, Int.cast_natCast, ← mul_assoc, ← mul_assoc, e1]

end F64

/-- A running float sum of multiples of `2 ^ g` is the exact sum while it stays within 53
bits. -/
theorem foldl_add_round {α : Type} (area : α → F64) (n : α → Nat) (g : Int)
    (hg : -1074 ≤ g) (hg' : g ≤ 970) :
    ∀ (l : List α) (acc : Nat), (∀ s ∈ l, area s = F64.round false (n s) g) →
      acc + (l.map n).sum ≤ 2 ^ 53 →
      l.foldl (fun t s => F64.add t (area s)) (F64.round false acc g) =
        F64.round false (acc + (l.map n).sum) g := by
  intro l
  induction l with
  | nil => intro acc _ _; simp
  | cons x xs ih =>
    intro acc hx hsum
    simp only [List.map_cons, List.sum_cons] at hsum
    simp only [List.foldl_cons, List.map_cons, List.sum_cons]
    rw [hx x (List.mem_cons_self _ _), F64.add_round acc (n x) g (by omega) hg hg',
      ih (acc + n x) (fun s hs => hx s (List.mem_cons_of_mem _ hs)) (by omega), Nat.add_assoc]

/-- On shapes whose areas are multiples of `2 ^ g` totalling at most `2 ^ 53` units,
`CalculateArea` returns the exact total. -/
theorem calculateArea_exact {Ext : Type} [Shape Ext] (n : Value Ext → Nat) (g : Int)
    (hg : -1074 ≤ g) (hg' : g ≤ 970) (l : List (Value Ext))
    (h : ∀ s ∈ l, s.Area = F64.round false (n s) g) (hsum : (l.map n).sum ≤ 2 ^ 53) :
    ShapeAreaCalculator.CalculateArea l = F64.round false (l.map n).sum g := by
  have h0 : F64.zero = F64.round false 0 g := by rw [F64.round_zero]; rfl
  unfold ShapeAreaCalculator.CalculateArea
  rw [h0, foldl_add_round Value.Area n g hg hg' l 0 h (by omega), Nat.zero_add]

namespace F64

/-- Float multiplication of two exactly represented multiples of powers of two is the
rounding of the exact product. -/
theorem mul_round (a b : Nat) (g g' : Int) (ha : a ≤ 2 ^ 53) (hb : b ≤ 2 ^ 53)
    (hg : -1074 ≤ g) (hg' : g ≤ 970) (hh : -1074 ≤ g') (hh' : g' ≤ 970) :
    mul (round false a g) (round false b g') = round false (a * b) (g + g') := by
  obtain ⟨f, k, h1, h2⟩ := round_rep a g ha hg hg'
  obtain ⟨f', k', h3, h4⟩ := round_rep b g' hb hh hh'
  have hf := ex_ge f
  have hf' := ex_ge f'
  rw [h1, h3]
  simp only [mul, Bool.xor_false]
  have e1 : round false (sig f k * sig f' k') (ex f + ex f') =
      round false (sig f k * sig f' k' * 2 ^ ((ex f + 1074).toNat + (ex f' + 1074).toNat))
        (-2148) := by
    rw [round_scale]; congr 1; omega
  have e2 : round false (a * b) (g + g') =
      round false (a * b * 2 ^ ((g + 1074).toNat + (g' + 1074).toNat)) (-2148) := by
    rw [round_scale]; congr 1; omega
  have e3 : sig f k * sig f' k' * 2 ^ ((ex f + 1074).toNat + (ex f' + 1074).toNat) =
      a * b * 2 ^ ((g + 1074).toNat + (g' + 1074).toNat) := by
    calc sig f k * sig f' k' * 2 ^ ((ex f + 1074).toNat + (ex f' + 1074).toNat)
        = (sig f k * 2 ^ (ex f + 1074).toNat) * (sig f' k' * 2 ^ (ex f' + 1074).toNat) := by
          rw [pow_add]; ring
      _ = (a * 2 ^ (g + 1074).toNat) * (b * 2 ^ (g' + 1074).toNat) := by rw [h2, h4]
      _ = a * b * 2 ^ ((g + 1074).toNat + (g' + 1074).toNat) := by rw [pow_add]; ring
  rw [e1, e2, e3]

/-- Float multiplication of two integers up to `2 ^ 53` is the rounding of their product. -/
theorem mul_ofNat (a b : Nat) (ha : a ≤ 2 ^ 53) (hb : b ≤ 2 ^ 53) :
    mul (ofNat a) (ofNat b) = ofNat (a * b) :=
  mul_round a b 0 0 ha hb (by decide) (by decide) (by decide) (by decide)


/-- Shifting right by `j + 1` digits with rounding to nearest moves the integer by at most
half a unit, `2 ^ j`. -/
theorem roundSig_shift_err (n : Nat) (e E : Int) (j : Nat) (hk : (E - e).toNat = j + 1) :
    roundSig n e E * 2 ^ (j + 1) ≤ n + 2 ^ j ∧ n ≤ roundSig n e E * 2 ^ (j + 1) + 2 ^ j := by
  have hE : ¬ E ≤ e := by omega
  unfold roundSig
  rw [if_neg hE]
  simp only [hk, Nat.add_sub_cancel]
  have hdm := Nat.div_add_mod n (2 ^ (j + 1))
  have hr := Nat.mod_lt n (show 0 < 2 ^ (j + 1) by positivity)
  have hp : 2 ^ (j + 1) = 2 * 2 ^ j := by rw [pow_succ]; ring
  generalize hq : n / 2 ^ (j + 1) = q at *
  generalize hrr : n % 2 ^ (j + 1) = r at *
  have hQ : 2 ^ (j + 1) * q = q * 2 ^ (j + 1) := Nat.mul_comm _ _
  split
  · rename_i hc
    have : (q + 1) * 2 ^ (j + 1) = q * 2 ^ (j + 1) + 2 ^ (j + 1) := by ring
    rw [this]
    rcases hc with hc | hc
    · omega
    · omega
  · rename_i hc
    have : r ≤ 2 ^ j := by
      by_contra h
      exact hc (Or.inl (by omega))
    omega

/-- The rounded significand has at most 53 bits (or is `2 ^ 53`), and at least 53 unless
the exponent is the subnormal one. -/
theorem roundSig_bounds (n : Nat) (e : Int) (hn : n ≠ 0) :
    roundSig n e (roundEx n e) ≤ 2 ^ 53 ∧
      (roundSig n e (roundEx n e) < 2 ^ 52 → roundEx n e = -1074) := by
  have hL1 := lt_two_pow_bitLen n
  have hL2 := two_pow_bitLen_le n hn
  have hL0 := bitLen_pos n hn
  obtain ⟨L, hL⟩ : ∃ L, bitLen n = L + 1 := ⟨bitLen n - 1, by omega⟩
  rw [hL] at hL1 hL2
  simp only [Nat.add_sub_cancel] at hL2
  have hEdef : roundEx n e = max (e + ((L + 1 : Nat) : Int) - 53) (-1074) := by
    unfold roundEx; rw [hL]
  by_cases hnorm : -1074 ≤ e + ((L + 1 : Nat) : Int) - 53
  · -- normal range: exactly 53 bits are kept
    have hE : roundEx n e = e + ((L + 1 : Nat) : Int) - 53 := by rw [hEdef]; omega
    rw [hE]
    by_cases hle : e + ((L + 1 : Nat) : Int) - 53 ≤ e
    · -- left shift by `d = 52 - L`
      obtain ⟨d, hd⟩ : ∃ d : Nat, L + d = 52 := ⟨52 - L, by push_cast at hle; omega⟩
      have hs : roundSig n e (e + ((L + 1 : Nat) : Int) - 53) = n * 2 ^ d := by
        unfold roundSig
        rw [if_pos hle]
        congr 2
        push_cast; omega
      rw [hs]
      have g1 : 2 ^ 52 ≤ n * 2 ^ d := by
        have : 2 ^ 52 = 2 ^ L * 2 ^ d := by rw [← pow_add, hd]
        rw [this]; exact Nat.mul_le_mul_right _ hL2
      have g2 : n * 2 ^ d < 2 ^ 53 := by
        have : 2 ^ 53 = 2 ^ (L + 1) * 2 ^ d := by rw [← pow_add]; congr 1; omega
        rw [this]; exact Nat.mul_lt_mul_of_pos_right hL1 (by positivity)
      exact ⟨by omega, fun h => by omega⟩
    · -- right shift by `j + 1 = L - 52`
      obtain ⟨j, hj⟩ : ∃ j : Nat, L = 52 + (j + 1) := ⟨L - 53, by push_cast at hle; omega⟩
      have hk : (e + ((L + 1 : Nat) : Int) - 53 - e).toNat = j + 1 := by push_cast; omega
      obtain ⟨h1, h2⟩ := roundSig_shift_err n e _ j hk
      generalize roundSig n e (e + ((L + 1 : Nat) : Int) - 53) = M at h1 h2 ⊢
      have p1 : 2 ^ L = 2 ^ 52 * 2 ^ (j + 1) := by rw [hj, pow_add]
      have p2 : 2 ^ (L + 1) = 2 ^ 53 * 2 ^ (j + 1) := by
        rw [hj, show 52 + (j + 1) + 1 = 53 + (j + 1) by omega, pow_add]
      have p3 : 2 ^ (j + 1) = 2 * 2 ^ j := by rw [pow_succ]; ring
      have pj : 0 < 2 ^ j := by positivity
      constructor
      · by_contra hM
        have : (2 ^ 53 + 1) * 2 ^ (j + 1) ≤ M * 2 ^ (j + 1) :=
          Nat.mul_le_mul_right _ (by omega)
        have e1 : (2 ^ 53 + 1) * 2 ^ (j + 1) = 2 ^ 53 * 2 ^ (j + 1) + 2 ^ (j + 1) := by ring
        omega
      · intro hM
        exfalso
        have : M * 2 ^ (j + 1) ≤ (2 ^ 52 - 1) * 2 ^ (j + 1) :=
          Nat.mul_le_mul_right _ (by omega)
        have e1 : (2 ^ 52 - 1) * 2 ^ (j + 1) + 2 ^ (j + 1) = 2 ^ 52 * 2 ^ (j + 1) := by
          rw [← Nat.succ_mul]; congr 1
        omega
  · -- subnormal range
    have hE : roundEx n e = -1074 := by rw [hEdef]; omega
    rw [hE]
    refine ⟨?_, fun _ => rfl⟩
    by_cases hle : (-1074 : Int) ≤ e
    · obtain ⟨d, hd⟩ : ∃ d : Nat, (e - -1074).toNat = d := ⟨_, rfl⟩
      have hs : roundSig n e (-1074) = n * 2 ^ d := by
        unfold roundSig
        rw [if_pos hle, hd]
      rw [hs]
      have : n * 2 ^ d < 2 ^ (L + 1) * 2 ^ d := Nat.mul_lt_mul_of_pos_right hL1 (by positivity)
      have h2 : 2 ^ (L + 1) * 2 ^ d ≤ 2 ^ 53 := by
        rw [← pow_add]; exact Nat.pow_le_pow_right (by norm_num) (by push_cast at hnorm; omega)
      omega
    · obtain ⟨j, hk⟩ : ∃ j : Nat, (-1074 - e).toNat = j + 1 := ⟨(-1074 - e).toNat - 1, by omega⟩
      obtain ⟨h1, h2⟩ := roundSig_shift_err n e _ j hk
      generalize roundSig n e (-1074) = M at h1 h2 ⊢
      have p3 : 2 ^ (j + 1) = 2 * 2 ^ j := by rw [pow_succ]; ring
      have pj : 0 < 2 ^ j := by positivity
      have hLj : L + 1 ≤ 52 + (j + 1) := by push_cast at hnorm; omega
      have p2 : 2 ^ (L + 1) ≤ 2 ^ 52 * 2 ^ (j + 1) := by
        rw [← pow_add]; exact Nat.pow_le_pow_right (by norm_num) hLj
      by_contra hM
      have : (2 ^ 53 + 1) * 2 ^ (j + 1) ≤ M * 2 ^ (j + 1) :=
        Nat.mul_le_mul_right _ (by omega)
      have e1 : (2 ^ 53 + 1) * 2 ^ (j + 1) = 2 * (2 ^ 52 * 2 ^ (j + 1)) + 2 ^ (j + 1) := by ring
      omega


theorem two_zpow_pos (a : Int) : (0 : ℚ) < 2 ^ a := zpow_pos (by norm_num) a

theorem two_zpow_add (a b : Int) : (2 : ℚ) ^ (a + b) = 2 ^ a * 2 ^ b :=
  zpow_add₀ (by norm_num) a b

theorem two_zpow_toNat (a : Int) (h : 0 ≤ a) : ((2 : ℚ) ^ a.toNat) = 2 ^ a := by
  rw [← zpow_natCast, Int.toNat_of_nonneg h]

/-- The rounded significand, read at the rounding exponent, is within half a unit in the
last place of the exact value. -/
theorem roundSig_err (n : Nat) (e E : Int) :
    |(roundSig n e E : ℚ) * 2 ^ E - (n : ℚ) * 2 ^ e| ≤ 2 ^ (E - 1) := by
  by_cases hle : E ≤ e
  · have hs : roundSig n e E = n * 2 ^ (e - E).toNat := by unfold roundSig; rw [if_pos hle]
    have : (roundSig n e E : ℚ) * 2 ^ E = (n : ℚ) * 2 ^ e := by
      rw [hs]; push_cast
      rw [two_zpow_toNat _ (by omega), mul_assoc, ← two_zpow_add]
      congr 2; omega
    rw [this, sub_self, abs_zero]
    exact (two_zpow_pos _).le
  · obtain ⟨j, hk⟩ : ∃ j : Nat, (E - e).toNat = j + 1 := ⟨(E - e).toNat - 1, by omega⟩
    obtain ⟨h1, h2⟩ := roundSig_shift_err n e E j hk
    generalize roundSig n e E = M at h1 h2 ⊢
    have hE : E = e + ((j + 1 : Nat) : Int) := by omega
    have hE1 : E - 1 = e + (j : Int) := by omega
    have q1 : (M : ℚ) * 2 ^ (j + 1) ≤ n + 2 ^ j := by exact_mod_cast h1
    have q2 : (n : ℚ) ≤ M * 2 ^ (j + 1) + 2 ^ j := by exact_mod_cast h2
    have pe := two_zpow_pos e
    rw [hE1]
    nth_rewrite 1 [hE]
    rw [two_zpow_add, two_zpow_add, zpow_natCast, zpow_natCast]
    have : (M : ℚ) * (2 ^ e * 2 ^ (j + 1)) - n * 2 ^ e = ((M : ℚ) * 2 ^ (j + 1) - n) * 2 ^ e := by
      ring
    rw [this, abs_mul, abs_of_pos pe, mul_comm ((2:ℚ) ^ e) _]
    apply mul_le_mul_of_nonneg_right _ pe.le
    rw [abs_le]
    constructor <;> linarith

/-- The float `pack s M E` stands for `M * 2 ^ E`. -/
theorem pack_spec (s : Bool) (M : Nat) (E : Int) (hM : M ≤ 2 ^ 53)
    (hsub : M < 2 ^ 52 → E = -1074) (hE1 : -1074 ≤ E) (hE2 : E ≤ 970) :
    ∃ f k, pack s M E = .fin s f k ∧ (sig f k : ℚ) * 2 ^ (ex f) = (M : ℚ) * 2 ^ E := by
  by_cases h52 : M < 2 ^ 52
  · refine ⟨⟨0, by decide⟩, ⟨M, h52⟩, pack_subnormal s M E h52, ?_⟩
    have h1 : sig ⟨0, by decide⟩ ⟨M, h52⟩ = M := by simp [sig]
    have h2 : ex ⟨0, by decide⟩ = -1074 := by simp [ex]
    rw [h1, h2, hsub h52]
  · by_cases h53 : M < 2 ^ 53
    · have g1 : 2 ^ 52 ≤ M := by omega
      refine ⟨_, _, pack_normal s M E g1 h53 hE1 (by omega), ?_⟩
      have h1 : sig ⟨(E + 1075).toNat, by omega⟩ ⟨M - 2 ^ 52, by omega⟩ = M := by
        simp only [sig]; rw [if_neg (by omega)]; omega
      have h2 : ex ⟨(E + 1075).toNat, by omega⟩ = E := by
        simp only [ex]; rw [if_neg (by omega)]; omega
      rw [h1, h2]
    · have hM' : M = 2 ^ 53 := by omega
      have hp : pack s M E = .fin s ⟨(E + 1076).toNat, by omega⟩ ⟨0, by decide⟩ := by
        unfold pack
        rw [dif_neg h52, if_neg h53]
        unfold packNormal
        rw [dif_pos ⟨⟨by omega, by omega⟩, by decide⟩]
      refine ⟨_, _, hp, ?_⟩
      have h1 : sig ⟨(E + 1076).toNat, by omega⟩ ⟨0, by decide⟩ = 2 ^ 52 := by
        simp only [sig]; rw [if_neg (by omega)]; rfl
      have h2 : ex ⟨(E + 1076).toNat, by omega⟩ = E + 1 := by
        simp only [ex]; rw [if_neg (by omega)]; omega
      rw [h1, h2, hM', two_zpow_add]
      push_cast
      rw [zpow_one]
      ring

/-- Rounding below the overflow range: the result is finite, has the given sign, and is
within relative error `2 ^ (-53)` (absolute error `2 ^ (-1075)` for subnormal results) of
the exact value. -/
theorem round_spec (s : Bool) (n : Nat) (e : Int) (hx : (n : ℚ) * 2 ^ e < 2 ^ (1023 : Int)) :
    ∃ f k, round s n e = .fin s f k ∧
      |(sig f k : ℚ) * 2 ^ (ex f) - (n : ℚ) * 2 ^ e| ≤
        2 ^ (-53 : Int) * ((n : ℚ) * 2 ^ e) + 2 ^ (-1075 : Int) := by
  by_cases hn : n = 0
  · subst hn
    refine ⟨⟨0, by decide⟩, ⟨0, by decide⟩, round_zero s e, ?_⟩
    have h1 : sig ⟨0, by decide⟩ ⟨0, by decide⟩ = 0 := by simp [sig]
    rw [h1]
    simp only [Nat.cast_zero, zero_mul, sub_self, abs_zero, mul_zero]
    have := (two_zpow_pos (-1075)).le
    linarith
  have hL2 := two_pow_bitLen_le n hn
  have hL0 := bitLen_pos n hn
  obtain ⟨L, hL⟩ : ∃ L, bitLen n = L + 1 := ⟨bitLen n - 1, by omega⟩
  rw [hL] at hL2
  simp only [Nat.add_sub_cancel] at hL2
  have hEdef : roundEx n e = max (e + ((L + 1 : Nat) : Int) - 53) (-1074) := by
    unfold roundEx; rw [hL]
  -- the exact value is at least `2 ^ (L + e)`
  have hlow : (2 : ℚ) ^ ((L : Int) + e) ≤ (n : ℚ) * 2 ^ e := by
    rw [two_zpow_add, zpow_natCast]
    apply mul_le_mul_of_nonneg_right _ (two_zpow_pos e).le
    exact_mod_cast hL2
  have hLe : (L : Int) + e < 1023 := by
    have := lt_of_le_of_lt hlow hx
    exact (zpow_lt_zpow_iff_right₀ (by norm_num : (1:ℚ) < 2)).1 this
  obtain ⟨hM1, hM2⟩ := roundSig_bounds n e hn
  have hE1 : -1074 ≤ roundEx n e := by rw [hEdef]; omega
  have hE2 : roundEx n e ≤ 970 := by rw [hEdef]; push_cast; omega
  obtain ⟨f, k, hp, hv⟩ := pack_spec s _ _ hM1 hM2 hE1 hE2
  refine ⟨f, k, hp, ?_⟩
  rw [hv]
  refine le_trans (roundSig_err n e (roundEx n e)) ?_
  by_cases hnorm : -1074 ≤ e + ((L + 1 : Nat) : Int) - 53
  · have hE : roundEx n e - 1 = -53 + ((L : Int) + e) := by rw [hEdef]; push_cast; omega
    rw [hE, two_zpow_add]
    have := mul_le_mul_of_nonneg_left hlow (two_zpow_pos (-53)).le
    have := (two_zpow_pos (-1075)).le
    linarith
  · have hE : roundEx n e - 1 = -1075 := by rw [hEdef]; omega
    rw [hE]
    have := mul_nonneg (two_zpow_pos (-53)).le (le_trans (two_zpow_pos _).le hlow)
    linarith


/-- The sign as a rational factor. -/
theorem signed_cast (s : Bool) (n : Nat) :
    ((signed s n : Int) : ℚ) = (if s then -1 else 1) * (n : ℚ) := by
  cases s <;> simp [signed]

theorem toRat_fin (s : Bool) (e : Fin 2047) (m : Fin (2 ^ 52)) :
    (F64.fin s e m).toRat = (if s then -1 else 1) * ((sig e m : ℚ) * 2 ^ (ex e)) := by
  simp only [toRat, signed_cast, mul_assoc]

theorem abs_toRat_fin (s : Bool) (e : Fin 2047) (m : Fin (2 ^ 52)) :
    |(F64.fin s e m).toRat| = (sig e m : ℚ) * 2 ^ (ex e) := by
  have h : (0:ℚ) ≤ (sig e m : ℚ) * 2 ^ (ex e) :=
    mul_nonneg (Nat.cast_nonneg _) (two_zpow_pos _).le
  rw [toRat_fin]
  cases s
  · simp only [Bool.false_eq_true, if_false, one_mul]; exact abs_of_nonneg h
  · simp only [if_true, neg_mul, one_mul, abs_neg]; exact abs_of_nonneg h

/-- Float multiplication below the overflow range: the product is finite and within
relative error `2 ^ (-53)`, plus `2 ^ (-1075)` for underflow, of the exact product. -/
theorem mul_spec (x y : F64) (hx : x.isFinite = true) (hy : y.isFinite = true)
    (h : |x.toRat * y.toRat| < 2 ^ (1023 : Int)) :
    (mul x y).isFinite = true ∧
      |(mul x y).toRat - x.toRat * y.toRat| ≤
        2 ^ (-53 : Int) * |x.toRat * y.toRat| + 2 ^ (-1075 : Int) := by
  cases x with
  | nan => simp [isFinite] at hx
  | inf s => simp [isFinite] at hx
  | fin s e m =>
    cases y with
    | nan => simp [isFinite] at hy
    | inf s => simp [isFinite] at hy
    | fin t f k =>
      have habs : |(F64.fin s e m).toRat * (F64.fin t f k).toRat| =
          ((sig e m * sig f k : Nat) : ℚ) * 2 ^ (ex e + ex f) := by
        rw [abs_mul, abs_toRat_fin, abs_toRat_fin, two_zpow_add]; push_cast; ring
      rw [habs] at h ⊢
      obtain ⟨f', k', hr, herr⟩ := round_spec (xor s t) (sig e m * sig f k) (ex e + ex f) h
      have hm : mul (F64.fin s e m) (F64.fin t f k) = .fin (xor s t) f' k' := hr
      rw [hm]
      refine ⟨rfl, ?_⟩
      have hsgn : (F64.fin (xor s t) f' k').toRat - (F64.fin s e m).toRat * (F64.fin t f k).toRat =
          (if xor s t then -1 else 1) *
            ((sig f' k' : ℚ) * 2 ^ (ex f') - ((sig e m * sig f k : Nat) : ℚ) * 2 ^ (ex e + ex f)) := by
        rw [toRat_fin, toRat_fin, toRat_fin, two_zpow_add]
        push_cast
        cases s <;> cases t <;> simp <;> ring
      rw [hsgn, abs_mul]
      have : |(if xor s t then (-1 : ℚ) else 1)| = 1 := by
        cases s <;> cases t <;> simp
      rw [this, one_mul]
      exact herr

end F64


/-- The float constant `Pi` as a fraction. -/
theorem F64.toRat_Pi : F64.Pi.toRat = 884279719003555 / 281474976710656 := by
  norm_num [F64.Pi, F64.toRat, F64.sig, F64.ex, F64.signed]

/-- The constant `F64.Pi` is the `float64` nearest to π: the distance is below half a unit
in the last place, `2 ^ (-52)`. -/
theorem F64.Pi_nearest : |((F64.Pi.toRat : ℚ) : ℝ) - Real.pi| < 1 / 2 ^ 52 := by
  rw [F64.toRat_Pi]
  have h1 := Real.pi_gt_d20
  have h2 := Real.pi_lt_d20
  rw [abs_lt]
  constructor
  · push_cast; norm_num; linarith
  · push_cast; norm_num; linarith

theorem F64.two_zpow_neg53_le : (2 : ℚ) ^ (-53 : Int) ≤ 11103 / 10 ^ 20 := by
  norm_num [zpow_neg]

theorem F64.two_zpow_neg1075_le : (2 : ℚ) ^ (-1075 : Int) ≤ 1 / 10 ^ 300 := by
  norm_num [zpow_neg]

/-- Rational part of the error analysis of `Circle.Area`: against the product with the
float constant. -/
theorem circle_area_rat (r : F64) (hr : r.isFinite = true) (h0 : 0 ≤ r.toRat)
    (h1 : r.toRat ≤ 1024) :
    (Circle.Area ⟨r⟩).isFinite = true ∧
      |(Circle.Area ⟨r⟩).toRat - F64.Pi.toRat * r.toRat ^ 2| ≤ 732 / 10 ^ 12 := by
  have hu := F64.two_zpow_neg53_le
  have hη := F64.two_zpow_neg1075_le
  have hu0 : (0:ℚ) ≤ 2 ^ (-53 : Int) := (F64.two_zpow_pos _).le
  have hη0 : (0:ℚ) ≤ 2 ^ (-1075 : Int) := (F64.two_zpow_pos _).le
  have hbig : (5000000 : ℚ) < 2 ^ (1023 : Int) := by
    norm_num
  generalize hρ : r.toRat = ρ at h0 h1
  have hP := F64.toRat_Pi
  -- first product
  have hx0 : 0 ≤ F64.Pi.toRat * ρ := by rw [hP]; positivity
  have hx1 : F64.Pi.toRat * ρ ≤ 3217 := by rw [hP]; linarith
  have hfin : F64.Pi.isFinite = true := rfl
  have s1 := F64.mul_spec F64.Pi r hfin hr (by rw [hρ, abs_of_nonneg hx0]; linarith)
  rw [hρ, abs_of_nonneg hx0] at s1
  obtain ⟨f1, e1⟩ := s1
  generalize ha : (F64.mul F64.Pi r).toRat = a at e1
  have hd1 : |a - F64.Pi.toRat * ρ| ≤ 3572 / 10 ^ 16 := by
    refine le_trans e1 ?_
    have : 2 ^ (-53 : Int) * (F64.Pi.toRat * ρ) ≤ 11103 / 10 ^ 20 * 3217 :=
      mul_le_mul hu hx1 hx0 (by norm_num)
    linarith
  have hd1' := abs_le.1 hd1
  have ha0 : -1 ≤ a := by linarith [hd1'.1]
  have ha1 : a ≤ 3218 := by linarith [hd1'.2]
  have haρ : |a * ρ| ≤ 3218 * 1024 := by
    rw [abs_mul, abs_of_nonneg h0]
    have : |a| ≤ 3218 := abs_le.2 ⟨by linarith, ha1⟩
    exact mul_le_mul this h1 h0 (by norm_num)
  -- second product
  have s2 := F64.mul_spec (F64.mul F64.Pi r) r f1 hr (by rw [ha, hρ]; linarith)
  rw [ha, hρ] at s2
  obtain ⟨f2, e2⟩ := s2
  refine ⟨f2, ?_⟩
  show |(F64.mul (F64.mul F64.Pi r) r).toRat - F64.Pi.toRat * ρ ^ 2| ≤ 732 / 10 ^ 12
  generalize (F64.mul (F64.mul F64.Pi r) r).toRat = b at e2 ⊢
  have hd2 : |b - a * ρ| ≤ 3659 / 10 ^ 13 := by
    refine le_trans e2 ?_
    have : 2 ^ (-53 : Int) * |a * ρ| ≤ 11103 / 10 ^ 20 * (3218 * 1024) :=
      mul_le_mul hu haρ (abs_nonneg _) (by norm_num)
    linarith
  have hd3 : |(a - F64.Pi.toRat * ρ) * ρ| ≤ 3572 / 10 ^ 16 * 1024 := by
    rw [abs_mul, abs_of_nonneg h0]
    exact mul_le_mul hd1 h1 h0 (by norm_num)
  have hsplit : b - F64.Pi.toRat * ρ ^ 2 = (b - a * ρ) + (a - F64.Pi.toRat * ρ) * ρ := by ring
  rw [hsplit]
  refine le_trans (abs_add _ _) ?_
  linarith

/-! ## Zeros -/

/-- The two zeros. -/
theorem F64.isZero_iff (x : F64) : x.isZero = true ↔ x = F64.zero ∨ x = F64.negZero := by
  cases x with
  | nan => simp [F64.isZero, F64.zero, F64.negZero]
  | inf s => simp [F64.isZero, F64.zero, F64.negZero]
  | fin s e m =>
    simp only [F64.isZero, beq_iff_eq, F64.sig_eq_zero_iff, F64.zero, F64.negZero, F64.fin.injEq]
    cases s <;> simp

/-- A product of finite floats with a zero factor is a zero. -/
theorem F64.mul_isZero (x y : F64) (hx : x.isFinite = true) (hy : y.isFinite = true)
    (h : x.isZero = true ∨ y.isZero = true) : (F64.mul x y).isZero = true := by
  cases x with
  | nan => simp [F64.isFinite] at hx
  | inf s => simp [F64.isFinite] at hx
  | fin s e m =>
    cases y with
    | nan => simp [F64.isFinite] at hy
    | inf s => simp [F64.isFinite] at hy
    | fin t f k =>
      have : F64.sig e m * F64.sig f k = 0 := by
        simp only [F64.isZero, beq_iff_eq] at h
        rcases h with h | h <;> simp [h]
      show (F64.round (xor s t) (F64.sig e m * F64.sig f k) (F64.ex e + F64.ex f)).isZero = true
      rw [this, F64.round_zero]
      rfl

/-- Under Go's `==` every float but NaN equals itself. -/
theorem F64.eq_self (x : F64) : F64.eq x x = decide (x ≠ F64.nan) := by
  cases x with
  | nan => rfl
  | inf s => simp [F64.eq]
  | fin s e m => simp [F64.eq]

/-! ## The type-switch calculator -/

/-- Without fusion, on a `Rectangle` or `Circle` the type switch adds what the `Area` method
returns. -/
theorem areaCalculator_step_eq {Ext : Type} [Shape Ext] (st : F64 × List String)
    (v : Value Ext) (hv : v.isRectangleOrCircle = true) :
    (AreaCalculator.step false st v).1 = F64.add st.1 v.Area := by
  cases v with
  | rectangle r => rfl
  | circle c => rfl
  | triangle t => simp [Value.isRectangleOrCircle] at hv
  | other x => simp [Value.isRectangleOrCircle] at hv

/-- Without fusion, on `Rectangle` and `Circle` values the loop of the type-switch calculator
and the loop of the interface calculator keep the same running area. -/
theorem areaCalculator_foldl_eq {Ext : Type} [Shape Ext] :
    ∀ (shapes : List (Value Ext)) (st : F64 × List String),
      (∀ s ∈ shapes, s.isRectangleOrCircle = true) →
      (shapes.foldl (AreaCalculator.step false) st).1 =
        shapes.foldl (fun totalArea shape => F64.add totalArea shape.Area) st.1 := by
  intro shapes
  induction shapes with
  | nil => intro st _; rfl
  | cons x xs ih =>
    intro st h
    simp only [List.foldl_cons]
    rw [ih _ (fun s hs => h s (List.mem_cons_of_mem _ hs)),
      areaCalculator_step_eq st x (h x (List.mem_cons_self _ _))]

/-- The area returned by the type-switch loop does not depend on the lines logged before. -/
theorem areaCalculator_foldl_fst {Ext : Type} (fused : Bool) :
    ∀ (shapes : List (Value Ext)) (st st' : F64 × List String), st.1 = st'.1 →
      (shapes.foldl (AreaCalculator.step fused) st).1 =
        (shapes.foldl (AreaCalculator.step fused) st').1 := by
  intro shapes
  induction shapes with
  | nil => intro st st' h; exact h
  | cons x xs ih =>
    intro st st' h
    simp only [List.foldl_cons]
    apply ih
    cases x <;> simp [AreaCalculator.step, h]

/-! ## The interface calculator -/

/-- The loop over `A ++ B` is the loop over `B` continued from the total of `A`. -/
theorem calculateArea_append {Ext : Type} [Shape Ext] (A B : List (Value Ext)) :
    ShapeAreaCalculator.CalculateArea (A ++ B) =
      B.foldl (fun totalArea shape => F64.add totalArea shape.Area)
        (ShapeAreaCalculator.CalculateArea A) := by
  simp [ShapeAreaCalculator.CalculateArea, List.foldl_append]

/-! ## The claims -/

set_option maxRecDepth 100000
set_option exponentiation.threshold 5000

/-- C1, counterexample: with `A = [Rectangle(2^53, 1)]` and `B = [Rectangle(1, 1),
Rectangle(1, 1)]` the running sum over `A ++ B` is `2^53` (each `+ 1` is rounded away), while
`CalculateArea(A) + CalculateArea(B)` is `2^53 + 2`. -/
theorem calculateArea_append_not_additive :
    ShapeAreaCalculator.CalculateArea (bigSquare ++ unitSquares) = F64.ofNat 9007199254740992 ∧
    F64.add (ShapeAreaCalculator.CalculateArea bigSquare)
      (ShapeAreaCalculator.CalculateArea unitSquares) = F64.ofNat 9007199254740994 ∧
    ShapeAreaCalculator.CalculateArea (bigSquare ++ unitSquares) ≠
      F64.add (ShapeAreaCalculator.CalculateArea bigSquare)
        (ShapeAreaCalculator.CalculateArea unitSquares) := by
  decide!

/-- C1, amended: when no addition rounds, which is so when every area is a multiple
`n * 2 ^ g` of one power of two and the multiples of `A ++ B` total at most `2 ^ 53`,
`CalculateArea(A ++ B)`, the running sum over `B` continued from `CalculateArea(A)` (see
`calculateArea_append`), equals `CalculateArea(A) + CalculateArea(B)`. -/
theorem calculateArea_append_exact {Ext : Type} [Shape Ext] (A B : List (Value Ext))
    (n : Value Ext → Nat) (g : Int) (hg : -1074 ≤ g) (hg' : g ≤ 970)
    (h : ∀ s ∈ A ++ B, s.Area = F64.round false (n s) g)
    (hsum : ((A ++ B).map n).sum ≤ 2 ^ 53) :
    ShapeAreaCalculator.CalculateArea (A ++ B) =
        B.foldl (fun totalArea shape => F64.add totalArea shape.Area)
          (ShapeAreaCalculator.CalculateArea A) ∧
      ShapeAreaCalculator.CalculateArea (A ++ B) =
        F64.add (ShapeAreaCalculator.CalculateArea A) (ShapeAreaCalculator.CalculateArea B) := by
  constructor
  · exact calculateArea_append A B
  · have hA : ∀ s ∈ A, s.Area = F64.round false (n s) g :=
      fun s hs => h s (List.mem_append_left _ hs)
    have hB : ∀ s ∈ B, s.Area = F64.round false (n s) g :=
      fun s hs => h s (List.mem_append_right _ hs)
    have hs : (A.map n).sum + (B.map n).sum ≤ 2 ^ 53 := by
      simpa [List.map_append, List.sum_append] using hsum
    rw [calculateArea_exact n g hg hg' (A ++ B) h hsum,
      calculateArea_exact n g hg hg' A hA (by omega),
      calculateArea_exact n g hg hg' B hB (by omega),
      F64.add_round _ _ g hs hg hg', List.map_append, List.sum_append]

/-- C1, witness: two unit squares followed by two unit squares. -/
theorem calculateArea_append_exact_witness :
    ShapeAreaCalculator.CalculateArea (unitSquares ++ unitSquares) =
        unitSquares.foldl (fun totalArea shape => F64.add totalArea shape.Area)
          (ShapeAreaCalculator.CalculateArea unitSquares) ∧
      ShapeAreaCalculator.CalculateArea (unitSquares ++ unitSquares) =
        F64.add (ShapeAreaCalculator.CalculateArea unitSquares)
          (ShapeAreaCalculator.CalculateArea unitSquares) :=
  calculateArea_append_exact unitSquares unitSquares (fun _ => 1) 0 (by decide) (by decide)
    (by decide!) (by decide)

/-- C2: appending one value `v` of any type implementing `Shape` changes the total by
`+ v.Area()`; the second part spells it out for a type other than the three of the file. -/
theorem calculateArea_append_singleton {Ext : Type} [Shape Ext] (A : List (Value Ext))
    (v : Value Ext) (x : Ext) :
    ShapeAreaCalculator.CalculateArea (A ++ [v]) =
        F64.add (ShapeAreaCalculator.CalculateArea A) v.Area ∧
      ShapeAreaCalculator.CalculateArea (A ++ [.other x]) =
        F64.add (ShapeAreaCalculator.CalculateArea A) (Shape.Area x) := by
  constructor <;> simp [ShapeAreaCalculator.CalculateArea, List.foldl_append, Value.Area]

/-- C3, counterexample: `Rectangle{Width: -1, Height: 0}` has area negative zero, and
`CalculateArea` of it alone returns positive zero. -/
theorem calculateArea_singleton_negZero :
    Value.Area negZeroRectangle = F64.negZero ∧
    ShapeAreaCalculator.CalculateArea [negZeroRectangle] = F64.zero ∧
    ShapeAreaCalculator.CalculateArea [negZeroRectangle] ≠ Value.Area negZeroRectangle := by
  decide!

/-- C3, amended: `CalculateArea([v])` is `v.Area()` itself for every value `Area()` can
produce except negative zero, for which it is positive zero; under Go's `==` the result
equals `v.Area()` exactly when the area is not NaN. -/
theorem calculateArea_singleton {Ext : Type} [Shape Ext] (v : Value Ext) :
    ShapeAreaCalculator.CalculateArea [v] =
        (if v.Area = F64.negZero then F64.zero else v.Area) ∧
      F64.eq (ShapeAreaCalculator.CalculateArea [v]) v.Area = decide (v.Area ≠ F64.nan) := by
  have h : ShapeAreaCalculator.CalculateArea [v] =
      (if v.Area = F64.negZero then F64.zero else v.Area) := by
    simp only [ShapeAreaCalculator.CalculateArea, List.foldl_cons, List.foldl_nil]
    exact F64.zero_add _
  refine ⟨h, ?_⟩
  rw [h]
  by_cases hz : v.Area = F64.negZero
  · rw [if_pos hz, hz]; decide
  · rw [if_neg hz, F64.eq_self]

/-- C4: `CalculateArea` of the empty slice is positive zero. -/
theorem calculateArea_nil {Ext : Type} [Shape Ext] :
    ShapeAreaCalculator.CalculateArea ([] : List (Value Ext)) = F64.zero := rfl

/-- C5, counterexample: `[Rectangle(2^53, 1), Rectangle(1, 1), Rectangle(1, 1)]` totals
`2^53`, the same three shapes with the big one last total `2^53 + 2`. -/
theorem calculateArea_order_dependent :
    ShapeAreaCalculator.CalculateArea (bigSquare ++ unitSquares) = F64.ofNat 9007199254740992 ∧
    ShapeAreaCalculator.CalculateArea (unitSquares ++ bigSquare) = F64.ofNat 9007199254740994 ∧
    ShapeAreaCalculator.CalculateArea (unitSquares ++ bigSquare) ≠
      ShapeAreaCalculator.CalculateArea (bigSquare ++ unitSquares) := by
  decide!

/-- C5, amended: the order of the elements does not affect the result when no addition
rounds, which is so when every area is a multiple `n * 2 ^ g` of one power of two and the
multiples total at most `2 ^ 53`. -/
theorem calculateArea_perm_exact {Ext : Type} [Shape Ext] (S S' : List (Value Ext))
    (n : Value Ext → Nat) (g : Int) (hg : -1074 ≤ g) (hg' : g ≤ 970)
    (h : ∀ s ∈ S, s.Area = F64.round false (n s) g)
    (hsum : (S.map n).sum ≤ 2 ^ 53) (hperm : S'.Perm S) :
    ShapeAreaCalculator.CalculateArea S' = ShapeAreaCalculator.CalculateArea S := by
  have h' : ∀ s ∈ S', s.Area = F64.round false (n s) g := fun s hs => h s (hperm.mem_iff.1 hs)
  have hs : (S'.map n).sum = (S.map n).sum := (hperm.map n).sum_eq
  rw [calculateArea_exact n g hg hg' S h hsum,
    calculateArea_exact n g hg hg' S' h' (by omega), hs]

/-- C5, witness: the demo's rectangle (area 200) and triangle (area 100) in both orders. -/
theorem calculateArea_perm_exact_witness :
    ShapeAreaCalculator.CalculateArea [tri1020, rect1020] =
      ShapeAreaCalculator.CalculateArea [rect1020, tri1020] :=
  calculateArea_perm_exact [rect1020, tri1020] [tri1020, rect1020]
    (fun s => match s with
      | .rectangle _ => 200
      | _ => 100)
    0 (by decide) (by decide) (by decide!) (by decide) (List.Perm.swap _ _ _)

/-- C6, counterexample: for the radius `4096` the area returned is finite and differs from
`π · 4096²` by more than `1e-9` (by about `2.05e-9`, the error of the constant times `r²`);
and for the radius `2 ^ 600` the area returned is `+Inf`. -/
theorem circle_area_exceeds_tolerance :
    (Circle.Area ⟨F64.ofNat 4096⟩).isFinite = true ∧
    (F64.ofNat 4096).toRat = 4096 ∧
    1 / 10 ^ 9 < |(((Circle.Area ⟨F64.ofNat 4096⟩).toRat : ℚ) : ℝ) - Real.pi * 4096 ^ 2| ∧
    Circle.Area ⟨F64.round false 1 600⟩ = .inf false := by
  have h : Circle.Area ⟨F64.ofNat 4096⟩ =
      .fin false ⟨1048, by decide⟩ ⟨2570638124657944, by decide⟩ := by decide!
  have hr : (Circle.Area ⟨F64.ofNat 4096⟩).toRat = 884279719003555 / 16777216 := by
    rw [h]
    norm_num [F64.toRat, F64.sig, F64.ex, F64.signed]
  refine ⟨by rw [h]; rfl, ?_, ?_, by decide!⟩
  · rw [show F64.ofNat 4096 = .fin false ⟨1035, by decide⟩ ⟨0, by decide⟩ by decide!]
    norm_num [F64.toRat, F64.sig, F64.ex, F64.signed]
  · rw [hr]
    have h1 := Real.pi_gt_d20
    rw [abs_sub_comm, abs_of_nonneg]
    · push_cast; linarith
    · push_cast; linarith

/-- C6, amended: `Circle.Area` computes `(Pi * r) * r` with the `float64` constant nearest
to π, and for every finite radius `0 ≤ r ≤ 1024` the result is finite and within `1e-9`
of `π · r²`. -/
theorem circle_area_tolerance (r : F64) (hr : r.isFinite = true) (h0 : 0 ≤ r.toRat)
    (h1 : r.toRat ≤ 1024) :
    Circle.Area ⟨r⟩ = F64.mul (F64.mul F64.Pi r) r ∧
    (Circle.Area ⟨r⟩).isFinite = true ∧
    |(((Circle.Area ⟨r⟩).toRat : ℚ) : ℝ) - Real.pi * ((r.toRat : ℚ) : ℝ) ^ 2| ≤ 1 / 10 ^ 9 := by
  obtain ⟨hf, hq⟩ := circle_area_rat r hr h0 h1
  refine ⟨rfl, hf, ?_⟩
  have hq' : |(((Circle.Area ⟨r⟩).toRat : ℚ) : ℝ) -
      ((F64.Pi.toRat : ℚ) : ℝ) * ((r.toRat : ℚ) : ℝ) ^ 2| ≤ 732 / 10 ^ 12 := by
    have := (Rat.cast_le (K := ℝ)).2 hq
    rw [Rat.cast_abs] at this
    push_cast at this
    exact this
  have hπ := F64.Pi_nearest
  have hρ0 : (0:ℝ) ≤ ((r.toRat : ℚ) : ℝ) := by exact_mod_cast h0
  have hρ1 : ((r.toRat : ℚ) : ℝ) ≤ 1024 := by exact_mod_cast h1
  have hsq : ((r.toRat : ℚ) : ℝ) ^ 2 ≤ 1024 ^ 2 := pow_le_pow_left₀ hρ0 hρ1 2
  have hsq0 : (0:ℝ) ≤ ((r.toRat : ℚ) : ℝ) ^ 2 := by positivity
  have hd : |(((F64.Pi.toRat : ℚ) : ℝ) - Real.pi) * ((r.toRat : ℚ) : ℝ) ^ 2| ≤
      1 / 2 ^ 52 * 1024 ^ 2 := by
    rw [abs_mul, abs_of_nonneg hsq0]
    exact mul_le_mul hπ.le hsq hsq0 (by norm_num)
  have hsplit : (((Circle.Area ⟨r⟩).toRat : ℚ) : ℝ) - Real.pi * ((r.toRat : ℚ) : ℝ) ^ 2 =
      ((((Circle.Area ⟨r⟩).toRat : ℚ) : ℝ) -
        ((F64.Pi.toRat : ℚ) : ℝ) * ((r.toRat : ℚ) : ℝ) ^ 2) +
      (((F64.Pi.toRat : ℚ) : ℝ) - Real.pi) * ((r.toRat : ℚ) : ℝ) ^ 2 := by ring
  rw [hsplit]
  refine le_trans (abs_add _ _) ?_
  have : (1:ℝ) / 2 ^ 52 * 1024 ^ 2 ≤ 2329 / 10 ^ 13 := by norm_num
  have : (732:ℝ) / 10 ^ 12 + 2329 / 10 ^ 13 ≤ 1 / 10 ^ 9 := by norm_num
  linarith

/-- C6, witness: the demo's circle, radius 5. -/
theorem circle_area_tolerance_witness :
    Circle.Area ⟨F64.ofNat 5⟩ = F64.mul (F64.mul F64.Pi (F64.ofNat 5)) (F64.ofNat 5) ∧
    (Circle.Area ⟨F64.ofNat 5⟩).isFinite = true ∧
    |(((Circle.Area ⟨F64.ofNat 5⟩).toRat : ℚ) : ℝ) -
      Real.pi * (((F64.ofNat 5).toRat : ℚ) : ℝ) ^ 2| ≤ 1 / 10 ^ 9 :=
  circle_area_tolerance (F64.ofNat 5) (by decide)
    (by rw [show F64.ofNat 5 = .fin false ⟨1025, by decide⟩ ⟨1125899906842624, by decide⟩
          by decide]
        norm_num [F64.toRat, F64.sig, F64.ex, F64.signed])
    (by rw [show F64.ofNat 5 = .fin false ⟨1025, by decide⟩ ⟨1125899906842624, by decide⟩
          by decide]
        norm_num [F64.toRat, F64.sig, F64.ex, F64.signed])

/-- C7: `Rectangle.Area` is the float product of width and height.  On integer sides it is
the exact product; below the overflow range it is finite and within relative error
`2 ^ (-53)` (plus `2 ^ (-1075)` for underflow) of the exact product; with a zero side the
area is a zero and `CalculateArea` of the rectangle alone is `0.0`. -/
theorem rectangle_area (w h : F64) (a b : Nat) (hw : w.isFinite = true) (hh : h.isFinite = true)
    (ha : a ≤ 2 ^ 53) (hb : b ≤ 2 ^ 53) :
    Rectangle.Area ⟨w, h⟩ = F64.mul w h ∧
    Rectangle.Area ⟨F64.ofNat a, F64.ofNat b⟩ = F64.ofNat (a * b) ∧
    (|w.toRat * h.toRat| < 2 ^ (1023 : Int) →
      (Rectangle.Area ⟨w, h⟩).isFinite = true ∧
      |(Rectangle.Area ⟨w, h⟩).toRat - w.toRat * h.toRat| ≤
        2 ^ (-53 : Int) * |w.toRat * h.toRat| + 2 ^ (-1075 : Int)) ∧
    (w.isZero = true ∨ h.isZero = true →
      (Rectangle.Area ⟨w, h⟩).isZero = true ∧
      ShapeAreaCalculator.CalculateArea [(.rectangle ⟨w, h⟩ : Value Empty)] = F64.zero) := by
  refine ⟨rfl, F64.mul_ofNat a b ha hb, fun hlt => F64.mul_spec w h hw hh hlt, fun hz => ?_⟩
  have h1 : (Rectangle.Area ⟨w, h⟩).isZero = true := F64.mul_isZero w h hw hh hz
  refine ⟨h1, ?_⟩
  have h2 : ShapeAreaCalculator.CalculateArea [(.rectangle ⟨w, h⟩ : Value Empty)] =
      F64.add F64.zero (Rectangle.Area ⟨w, h⟩) := rfl
  rw [h2, F64.zero_add]
  rcases (F64.isZero_iff _).1 h1 with h3 | h3
  · rw [h3]; decide
  · rw [if_pos h3]

/-- C7, witness: `Rectangle(0, 5)` has a zero area and `CalculateArea([Rectangle(0, 5)])` is
`0.0`; `Rectangle(10, 20)` has area `200`. -/
theorem rectangle_area_witness :
    Rectangle.Area ⟨F64.ofNat 10, F64.ofNat 20⟩ = F64.ofNat 200 ∧
    (Rectangle.Area ⟨F64.ofNat 0, F64.ofNat 5⟩).isZero = true ∧
    ShapeAreaCalculator.CalculateArea
      [(.rectangle ⟨F64.ofNat 0, F64.ofNat 5⟩ : Value Empty)] = F64.zero :=
  have h := rectangle_area (F64.ofNat 0) (F64.ofNat 5) 10 20 (by decide) (by decide)
    (by decide) (by decide)
  ⟨h.2.1, h.2.2.2 (Or.inl (by decide))⟩

/-- C8: `Triangle.Area` is the float product `(0.5 * base) * height`; on integer sides it is
the float nearest to half their product, and that half itself while the product is at most
`2 ^ 53`. -/
theorem triangle_area (b h : F64) (m n : Nat) (hm : m ≤ 2 ^ 53) (hn : n ≤ 2 ^ 53) :
    Triangle.Area ⟨b, h⟩ = F64.mul (F64.mul F64.half b) h ∧
    Triangle.Area ⟨F64.ofNat m, F64.ofNat n⟩ = F64.round false (m * n) (-1) ∧
    (m * n ≤ 2 ^ 53 → (Triangle.Area ⟨F64.ofNat m, F64.ofNat n⟩).toRat = (m * n : ℚ) / 2) := by
  have hhalf : F64.half = F64.round false 1 (-1) := by decide
  have h1 : Triangle.Area ⟨F64.ofNat m, F64.ofNat n⟩ = F64.round false (m * n) (-1) := by
    show F64.mul (F64.mul F64.half (F64.round false m 0)) (F64.round false n 0) = _
    rw [hhalf, F64.mul_round 1 m (-1) 0 (by norm_num) hm (by decide) (by decide) (by decide)
      (by decide), Nat.one_mul,
      F64.mul_round m n (-1 + 0) 0 hm hn (by decide) (by decide) (by decide) (by decide)]
    rfl
  refine ⟨rfl, h1, fun hmn => ?_⟩
  rw [h1, F64.toRat_round _ _ hmn (by decide) (by decide)]
  push_cast
  rw [zpow_neg_one]
  ring

/-- C8, witness: the demo's triangle, base 10 and height 20, has area 100. -/
theorem triangle_area_witness :
    Triangle.Area ⟨F64.ofNat 10, F64.ofNat 20⟩ = F64.round false (10 * 20) (-1) ∧
    (Triangle.Area ⟨F64.ofNat 10, F64.ofNat 20⟩).toRat = (10 * 20 : ℚ) / 2 :=
  have h := triangle_area (F64.ofNat 10) (F64.ofNat 20) 10 20 (by decide) (by decide)
  ⟨h.2.1, by exact_mod_cast h.2.2 (by decide)⟩

/-- C9: on the slice of `OCP_Demo` the total is the float `0x4077A8A3167550CF`, which is
within `1e-6` of `378.5398163` and of `200 + 25π + 100`. -/
theorem demo_total :
    ShapeAreaCalculator.CalculateArea OCP_Demo.shapes =
      .fin false ⟨1031, by decide⟩ ⟨2155743246897359, by decide⟩ ∧
    |(ShapeAreaCalculator.CalculateArea OCP_Demo.shapes).toRat - 3785398163 / 10000000| < 1 / 1000000 ∧
    |(((ShapeAreaCalculator.CalculateArea OCP_Demo.shapes).toRat : ℚ) : ℝ) -
      (200 + 25 * Real.pi + 100)| < 1 / 1000000 := by
  have h : ShapeAreaCalculator.CalculateArea OCP_Demo.shapes =
      .fin false ⟨1031, by decide⟩ ⟨2155743246897359, by decide⟩ := by decide!
  have hr : (ShapeAreaCalculator.CalculateArea OCP_Demo.shapes).toRat =
      6659342874267855 / 17592186044416 := by
    rw [h]
    norm_num [F64.toRat, F64.sig, F64.ex, F64.signed]
  refine ⟨h, ?_, ?_⟩
  · rw [hr]; rw [abs_lt]; constructor <;> norm_num
  · rw [hr]
    have h1 := Real.pi_gt_d20
    have h2 := Real.pi_lt_d20
    rw [abs_lt]
    constructor
    · push_cast; linarith
    · push_cast; linarith

/-- C10, counterexample: on `[Rectangle{10, 20}, Circle{10}]` a build that fuses
`area += x * y` returns `0x408011462CEAA19D` from the type-switch calculator, while the
interface calculator returns `0x408011462CEAA19E`. -/
theorem areaCalculator_fused_differs :
    (AreaCalculator.CalculateArea true [rect1020, circ10]).1 =
      .fin false ⟨1032, by decide⟩ ⟨18993098957213, by decide⟩ ∧
    ShapeAreaCalculator.CalculateArea [rect1020, circ10] =
      .fin false ⟨1032, by decide⟩ ⟨18993098957214, by decide⟩ ∧
    (AreaCalculator.CalculateArea true [rect1020, circ10]).1 ≠
      ShapeAreaCalculator.CalculateArea [rect1020, circ10] := by
  decide!

/-- C10, amended: on a build that rounds the product before the addition, the type-switch
calculator returns on a slice of `Rectangle` and `Circle` values the total of the interface
calculator; and on every build an element of any other type is skipped: the total is that
of the slice without it. -/
theorem areaCalculator_agrees {Ext : Type} [Shape Ext] (fused : Bool)
    (shapes xs ys : List (Value Ext)) (v : Value Ext)
    (hknown : ∀ s ∈ shapes, s.isRectangleOrCircle = true)
    (hv : v.isRectangleOrCircle = false) :
    (AreaCalculator.CalculateArea false shapes).1 = ShapeAreaCalculator.CalculateArea shapes ∧
    (AreaCalculator.CalculateArea fused (xs ++ v :: ys)).1 =
      (AreaCalculator.CalculateArea fused (xs ++ ys)).1 := by
  constructor
  · exact areaCalculator_foldl_eq shapes (F64.zero, []) hknown
  · simp only [AreaCalculator.CalculateArea, List.foldl_append, List.foldl_cons]
    apply areaCalculator_foldl_fst
    cases v with
    | rectangle r => simp [Value.isRectangleOrCircle] at hv
    | circle c => simp [Value.isRectangleOrCircle] at hv
    | triangle t => rfl
    | other x => rfl

/-- C10, witness: the demo's rectangle and circle without fusion, and the demo's triangle
between them on a fusing build. -/
theorem areaCalculator_agrees_witness :
    (AreaCalculator.CalculateArea false [rect1020, circ5]).1 =
      ShapeAreaCalculator.CalculateArea [rect1020, circ5] ∧
    (AreaCalculator.CalculateArea true ([rect1020] ++ tri1020 :: [circ5])).1 =
      (AreaCalculator.CalculateArea true ([rect1020] ++ [circ5])).1 :=
  areaCalculator_agrees true [rect1020, circ5] [rect1020] [circ5] tri1020 (by decide)
    (by decide)

end OCP
